import Mathlib

/-!
Verification of the etk assembler front end (src/etk-asm/src/parse/mod.rs).

The development shallowly embeds the parser: the AST builder parse_asm,
the push-operand normalizer parse_push with radix_str_to_vec, and the
directive argument checker.  Code of the repository that is not in
src/ (the pest grammar asm.pest, the crate::ops module with Specifier and
AbstractOp::with_immediate, the crate::parse::args argument-typing module,
and the error enum) is modelled from the specification; each such
definition is marked in its doc comment.  Rust integers become Nat with
explicit bounds, fallible code returns Option/Except, and a Rust panic is
the explicit RResult.crash outcome.
-/

set_option autoImplicit false

namespace Etk

/-- Modelled from the spec: the closed error taxonomy of
crate::parse::error (not in src/): Lexer, ImmediateTooLarge,
ExtraArgument with the expected count, MissingArgument with got and
expected counts, ArgumentType. -/
inductive ParseError where
  | lexer
  | immediateTooLarge
  | extraArgument (expected : Nat)
  | missingArgument (got : Nat) (expected : Nat)
  | argumentType
  deriving DecidableEq, Repr

/-- Outcome of running a fallible Rust function: a value, an error value,
or a panic (crash).  A panic is not a ParseError; it aborts the process. -/
inductive RResult (α : Type) where
  | ok (a : α)
  | err (e : ParseError)
  | crash
  deriving DecidableEq, Repr

/-- Modelled from the spec: a Specifier (crate::ops, not in src/)
describes one instruction class by its opcode value and its total encoded
size in bytes, which is 1 (the opcode byte) plus the number of immediate
bytes the instruction carries. -/
structure Specifier where
  opcode : Nat
  size : Nat
  deriving DecidableEq, Repr

/-- Modelled from the spec: an Immediate is either a concrete byte
sequence or an unresolved symbolic reference (a label name). -/
inductive Imm where
  | bytes (bs : List Nat)
  | labelRef (name : List Char)
  deriving DecidableEq, Repr

/-- Modelled from the spec: an abstract instruction is a fully concrete
instruction (opcode, possibly with an immediate), a label definition, or
the push-with-deferred-operand form of the push convenience directive. -/
inductive AbstractOp where
  | opcode (spec : Specifier) (imm : Option Imm)
  | label (name : List Char)
  | pushDeferred (imm : Imm)
  deriving DecidableEq, Repr

/-- Modelled from the spec: an AST node is an instruction, an import
directive (path), an include directive (path), or an include-as-bytes
directive (path).  Constructors impFile, inclFile, inclHexFile embed the
source's Import, Include, IncludeHex. -/
inductive Node where
  | op (a : AbstractOp)
  | impFile (path : List Char)
  | inclFile (path : List Char)
  | inclHexFile (path : List Char)
  deriving DecidableEq, Repr

/-- Push operand as classified by the grammar: the lexical alternatives
of the push rule.  binary, octal and hex carry the raw matched text
including the two-character radix marker, exactly as pest's as_str does. -/
inductive Operand where
  | binary (raw : List Char)
  | octal (raw : List Char)
  | decimal (raw : List Char)
  | hex (raw : List Char)
  | selector (sig : List Char)
  | labelRef (name : List Char)
  deriving DecidableEq, Repr

/-! ## Numeric literal parsing (radix_str_to_vec and its callees) -/

/-- Value of one digit character the way Rust's char::to_digit assigns
them: 0-9, then letters a-z or A-Z as 10..35. -/
def digitVal (c : Char) : Option Nat :=
  if '0' ≤ c ∧ c ≤ '9' then some (c.toNat - 48)
  else if 'a' ≤ c ∧ c ≤ 'z' then some (c.toNat - 97 + 10)
  else if 'A' ≤ c ∧ c ≤ 'Z' then some (c.toNat - 65 + 10)
  else none

/-- Rust char::to_digit: the digit value when it is below the radix. -/
def toDigit (c : Char) (radix : Nat) : Option Nat :=
  match digitVal c with
  | some d => if d < radix then some d else none
  | none => none

/-- One step of u128::from_str_radix: shift the accumulator by the radix
and add the digit, with a 128-bit overflow check; an invalid digit or a
previous failure propagates none (Rust Err). -/
def radixStep (radix : Nat) (acc : Option Nat) (c : Char) : Option Nat :=
  match acc, toDigit c radix with
  | some a, some d =>
      if a * radix + d < 2 ^ 128 then some (a * radix + d) else none
  | _, _ => none

/-- Strip one leading plus sign, as u128::from_str_radix tolerates. -/
def dropPlus (s : List Char) : List Char :=
  match s with
  | '+' :: rest => rest
  | _ => s

/-- Embedding of u128::from_str_radix: an optional leading plus sign, then
a nonempty digit string folded left with a per-step 128-bit overflow
check. -/
def from_str_radix (s : List Char) (radix : Nat) : Option Nat :=
  let ds := dropPlus s
  if ds.isEmpty then none
  else ds.foldl (radixStep radix) (some 0)

/-- One step of the mathematical value of a digit string (no overflow
check). -/
def radixValStep (radix : Nat) (a : Nat) (c : Char) : Nat :=
  a * radix + (toDigit c radix).getD 0

/-- Mathematical value of a digit string in a radix (no overflow check);
used to state claims about from_str_radix. -/
def radixVal (radix : Nat) (s : List Char) : Nat :=
  s.foldl (radixValStep radix) 0

/-- Fuel-driven bit length: structural recursion so the kernel can
evaluate it.  With fuel at least n it computes the number of binary
digits of n (zero for zero). -/
def bitlenFuel : Nat → Nat → Nat
  | 0, _ => 0
  | fuel + 1, n => if n = 0 then 0 else bitlenFuel fuel (n / 2) + 1

/-- Number of bits in the binary representation of n (zero for zero);
this is 128 minus u128::leading_zeros for values below 2^128. -/
def bitlen (n : Nat) : Nat :=
  bitlenFuel n n

/-- Embedding of u128::leading_zeros for a value below 2^128. -/
def leadingZeros128 (n : Nat) : Nat :=
  128 - bitlen n

/-- The length computation of radix_str_to_vec before the max with the
declared minimum: msb / 8, plus one when msb is not a byte multiple.
For n = 0 the most significant bit index is 0 and the result is 0. -/
def radixPrePadLen (n : Nat) : Nat :=
  let msb := 128 - leadingZeros128 n
  let len := msb / 8
  if msb % 8 ≠ 0 then len + 1 else len

/-- Big-endian bytes of n truncated or left-padded to exactly k bytes;
beBytesPad 16 n embeds u128::to_be_bytes. -/
def beBytesPad : Nat → Nat → List Nat
  | 0, _ => []
  | k + 1, n => (n >>> (8 * k)) % 256 :: beBytesPad k n

/-- Embedding of radix_str_to_vec: parse the digit string as a u128 (an
unparsable or overflowing string is ImmediateTooLarge), compute the
minimal byte length, raise it to the declared minimum, and slice the last
len bytes of the 16-byte big-endian representation.  When len exceeds 16
the source computes the slice start as 16 - len in usize, which panics
(subtract with overflow, or an out-of-range slice start in release
builds): that outcome is crash. -/
def radix_str_to_vec (s : List Char) (radix : Nat) (minLen : Nat) :
    RResult (List Nat) :=
  match from_str_radix s radix with
  | none => .err .immediateTooLarge
  | some n =>
    let len := max (radixPrePadLen n) minLen
    if 16 < len then .crash
    else .ok ((beBytesPad 16 n).drop (16 - len))

/-- Value of one hexadecimal digit character. -/
def hexDigitVal (c : Char) : Option Nat :=
  toDigit c 16

/-- Embedding of hex::decode on the digit string after the 0x marker:
pairs of hex digits become bytes; an odd number of digits or an invalid
digit yields none (Rust Err). -/
def hexDecode : List Char → Option (List Nat)
  | [] => some []
  | [_] => none
  | c1 :: c2 :: rest =>
    match hexDigitVal c1, hexDigitVal c2, hexDecode rest with
    | some hi, some lo, some r => some ((16 * hi + lo) :: r)
    | _, _, _ => none

/-! ## The ops model: specifiers and instruction constructors -/

/-- Modelled from the spec: Specifier::push (crate::ops, not in src/):
for n in 1..=32 the push-family specifier, whose opcode is 0x60 for
push1 up to 0x7f for push32 and whose total encoded size is n + 1
(one opcode byte plus n immediate bytes). -/
def Specifier.push (n : Nat) : Option Specifier :=
  if 1 ≤ n ∧ n ≤ 32 then some ⟨0x5f + n, n + 1⟩ else none

/-- Modelled from the spec: AbstractOp::with_immediate (crate::ops, not
in src/): normalize a raw byte sequence against the width declared by the
specifier (total size minus one): if the raw byte count exceeds the
width, fail; otherwise left-pad with zero bytes until the length is
exactly the width. -/
def with_immediate (spec : Specifier) (imm : List Nat) : Option AbstractOp :=
  let width := spec.size - 1
  if width < imm.length then none
  else some (.opcode spec (some (.bytes (List.replicate (width - imm.length) 0 ++ imm))))

/-- Modelled from the spec: AbstractOp::with_label (crate::ops, not in
src/): a concrete push instruction whose immediate is the unresolved
symbolic reference carrying the label name. -/
def with_label (spec : Specifier) (name : List Char) : AbstractOp :=
  .opcode spec (some (.labelRef name))

/-- Embedding of the .ok().context(error::ImmediateTooLarge)? pattern of
parse_push: a failed constructor call becomes the ImmediateTooLarge
error. -/
def ctxITL (o : Option AbstractOp) : RResult AbstractOp :=
  match o with
  | some a => .ok a
  | none => .err .immediateTooLarge

/-! ## Keccak-256 (the sha3 crate's Keccak256, modelled) -/

/-- Rotate a 64-bit word (a Nat below 2^64) left by n bits. -/
def rotl64 (x n : Nat) : Nat :=
  ((x <<< n) ||| (x >>> (64 - n))) % (2 ^ 64)

/-- One step of the degree-8 LFSR that drives the Keccak iota round
constants (polynomial x^8 + x^6 + x^5 + x^4 + 1). -/
def lfsrNext (r : Nat) : Nat :=
  if 128 ≤ r then ((r * 2) ^^^ 0x71) % 256 else r * 2

/-- Generate the iota round constants from an LFSR state: each round
takes seven LFSR output bits, placed at bit positions 2^j - 1 of the
64-bit lane. -/
def rcFrom (r : Nat) : Nat → List Nat
  | 0 => []
  | n + 1 =>
    let step := fun (p : Nat × Nat) (j : Nat) =>
      if p.1 % 2 = 1 then (lfsrNext p.1, p.2 ^^^ (1 <<< (2 ^ j - 1)))
      else (lfsrNext p.1, p.2)
    let q := (List.range 7).foldl step (r, 0)
    q.2 :: rcFrom q.1 n

/-- Keccak round constants for the 24 rounds of Keccak-f[1600],
generated from the standard LFSR seeded with 1. -/
def keccakRC : List Nat :=
  rcFrom 1 24

/-- Keccak rho rotation offsets, indexed x + 5 * y, generated by the
standard coordinate walk: start at lane (1,0) and for t from 0 to 23
assign (t+1)(t+2)/2 mod 64, moving to (y, 2x+3y mod 5); lane (0,0)
keeps offset 0. -/
def keccakRot : List Nat :=
  let walk := fun (p : (Nat × Nat) × List Nat) (t : Nat) =>
    ((p.1.2, (2 * p.1.1 + 3 * p.1.2) % 5),
      p.2.set (p.1.1 + 5 * p.1.2) (((t + 1) * (t + 2) / 2) % 64))
  ((List.range 24).foldl walk ((1, 0), List.replicate 25 0)).2

/-- Theta step of Keccak-f: xor each lane with the parity of two
neighbouring columns. -/
def keccakTheta (a : List Nat) : List Nat :=
  let col := fun x =>
    ((((a.getD x 0).xor (a.getD (x + 5) 0)).xor (a.getD (x + 10) 0)).xor
        (a.getD (x + 15) 0)).xor (a.getD (x + 20) 0)
  let c := (List.range 5).map col
  let d := (List.range 5).map
    (fun x => (c.getD ((x + 4) % 5) 0).xor (rotl64 (c.getD ((x + 1) % 5) 0) 1))
  (List.range 25).map (fun i => (a.getD i 0).xor (d.getD (i % 5) 0))

/-- Rho and pi steps of Keccak-f: rotate each lane by its offset and
permute lane positions. -/
def keccakRhoPi (a : List Nat) : List Nat :=
  (List.range 25).map (fun i =>
    let xp := i % 5
    let yp := i / 5
    let x := (xp + 3 * yp) % 5
    let y := xp
    rotl64 (a.getD (x + 5 * y) 0) (keccakRot.getD (x + 5 * y) 0))

/-- Chi step of Keccak-f: nonlinear mix along rows. -/
def keccakChi (b : List Nat) : List Nat :=
  (List.range 25).map (fun i =>
    let x := i % 5
    let y := i / 5
    (b.getD i 0).xor
      (Nat.land ((b.getD ((x + 1) % 5 + 5 * y) 0).xor (2 ^ 64 - 1))
        (b.getD ((x + 2) % 5 + 5 * y) 0)))

/-- One round of Keccak-f: theta, rho, pi, chi, then the round constant
xored into lane 0. -/
def keccakRound (a : List Nat) (rcon : Nat) : List Nat :=
  match keccakChi (keccakRhoPi (keccakTheta a)) with
  | [] => []
  | a0 :: rest => a0.xor rcon :: rest

/-- The full Keccak-f[1600] permutation: 24 rounds. -/
def keccakF (a : List Nat) : List Nat :=
  keccakRC.foldl keccakRound a

/-- Little-endian 64-bit lane read from a byte list at a given offset. -/
def laneAt (bytes : List Nat) (off : Nat) : Nat :=
  (List.range 8).foldl (fun acc j => acc + (bytes.getD (off + j) 0) <<< (8 * j)) 0

/-- Absorb one 136-byte rate block into the state and permute. -/
def absorbBlock (st block : List Nat) : List Nat :=
  keccakF ((List.range 25).map (fun i =>
    if i < 17 then (st.getD i 0).xor (laneAt block (8 * i)) else st.getD i 0))

/-- Keccak multi-rate padding for rate 136 with the original 0x01 domain
byte (the Keccak256 of the sha3 crate, not NIST SHA3): 0x01, zeros, then
0x80, collapsing to a single 0x81 when only one byte is free. -/
def pad101 (msgLen : Nat) : List Nat :=
  let m := msgLen % 136
  if m = 135 then [0x81] else 0x01 :: (List.replicate (134 - m) 0 ++ [0x80])

/-- The message with its padding appended; the length is a multiple of
136. -/
def keccakPadded (msg : List Nat) : List Nat :=
  msg ++ pad101 msg.length

/-- Absorb all 136-byte blocks; fuel-driven structural recursion (fuel at
least the number of remaining bytes suffices). -/
def absorbAll : Nat → List Nat → List Nat → List Nat
  | _, st, [] => st
  | 0, st, _ => st
  | fuel + 1, st, blocks =>
    absorbAll fuel (absorbBlock st (blocks.take 136)) (blocks.drop 136)

/-- Keccak-256 of a byte sequence: absorb the padded message into the
all-zero state, then squeeze the first 32 bytes (lanes little-endian). -/
def keccak256 (msg : List Nat) : List Nat :=
  let p := keccakPadded msg
  let st := absorbAll p.length (List.replicate 25 0) p
  (List.range 32).map (fun i => (st.getD (i / 8) 0 >>> (8 * (i % 8))) % 256)

/-- UTF-8 bytes of one character, as Rust str::as_bytes yields them. -/
def charUtf8 (c : Char) : List Nat :=
  let n := c.toNat
  if n < 0x80 then [n]
  else if n < 0x800 then [0xc0 + n / 64, 0x80 + n % 64]
  else if n < 0x10000 then
    [0xe0 + n / 4096, 0x80 + (n / 64) % 64, 0x80 + n % 64]
  else
    [0xf0 + n / 262144, 0x80 + (n / 4096) % 64, 0x80 + (n / 64) % 64,
     0x80 + n % 64]

/-- UTF-8 byte sequence of a character list (Rust str::as_bytes). -/
def utf8Bytes (s : List Char) : List Nat :=
  (s.map charUtf8).flatten

/-! ## parse_push -/

/-- The shared body of the three numeric branches of parse_push: run
radix_str_to_vec on the digit text, then the constructor-or-
ImmediateTooLarge pattern; a propagated error or panic passes through. -/
def pushRadix (spec : Specifier) (s : List Char) (radix size : Nat) :
    RResult AbstractOp :=
  match radix_str_to_vec s radix size with
  | .ok imm => ctxITL (with_immediate spec imm)
  | .err e => .err e
  | .crash => .crash

/-- Embedding of parse_push, dispatching on the operand's lexical form
exactly as the source matches on the pest rule: numeric literals go
through radix_str_to_vec (the radix marker is sliced off first), hex
literals through hex::decode (whose unwrap on a failed decode is a
panic), selectors take the first size bytes of the Keccak-256 digest of
the signature, and a bare identifier becomes a deferred label reference.
The Specifier::push unwrap never fails for grammar-produced sizes; a size
outside 1..=32 would panic. -/
def parse_push (size : Nat) (operand : Operand) : RResult AbstractOp :=
  match Specifier.push size with
  | none => .crash
  | some spec =>
    match operand with
    | .binary raw => pushRadix spec (raw.drop 2) 2 size
    | .octal raw => pushRadix spec (raw.drop 2) 8 size
    | .decimal raw => pushRadix spec raw 10 size
    | .hex raw =>
      match hexDecode (raw.drop 2) with
      | none => .crash
      | some imm => ctxITL (with_immediate spec imm)
    | .selector sig =>
      ctxITL (with_immediate spec ((keccak256 (utf8Bytes sig)).take (spec.size - 1)))
    | .labelRef name => .ok (with_label spec name)

/-! ## The grammar (modelled) and the AST builder parse_asm -/

/-- Whitespace characters inside a line. -/
def isWS (c : Char) : Bool :=
  c = ' ' || c = '\t' || c = '\r'

/-- Modelled from the spec: first character of an identifier in the
grammar asm.pest (not in src/): a letter or underscore. -/
def isIdentStart (c : Char) : Bool :=
  c.isAlpha || c = '_'

/-- Modelled from the spec: a later character of an identifier: a letter,
digit or underscore. -/
def isIdentChar (c : Char) : Bool :=
  c.isAlphanum || c = '_'

/-- Modelled from the spec: a whole identifier (label names, mnemonics). -/
def isIdent (l : List Char) : Bool :=
  match l with
  | [] => false
  | c :: rest => isIdentStart c && rest.all isIdentChar

/-- Split a character list on a separator character. -/
def splitOnC (sep : Char) : List Char → List (List Char)
  | [] => [[]]
  | c :: rest =>
    let r := splitOnC sep rest
    if c = sep then [] :: r
    else
      match r with
      | [] => [[c]]
      | h :: t => (c :: h) :: t

/-- Drop everything from the first # on: a comment runs to end of line. -/
def dropComment : List Char → List Char
  | [] => []
  | c :: rest => if c = '#' then [] else c :: dropComment rest

/-- Trim surrounding whitespace. -/
def trimC (l : List Char) : List Char :=
  ((l.dropWhile isWS).reverse.dropWhile isWS).reverse

/-- Modelled from the spec: the statement layer of the grammar: newline
or semicolon are interchangeable statement separators, comments run from
a # to end of line, and blank statements are skipped. -/
def statements (src : List Char) : List (List Char) :=
  ((((splitOnC '\n' src).map dropComment).map (splitOnC ';')).flatten.map trimC).filter
    (fun s => !s.isEmpty)

/-- Modelled from the spec: a character legal inside a selector signature
string: identifier characters, parentheses and commas, but no spaces and
no quotes (a malformed signature is a Lexer error). -/
def sigChar (c : Char) : Bool :=
  isIdentChar c || c = '(' || c = ')' || c = ','

/-- Modelled from the spec: recognize a selector expression
selector("SIG") and return the signature text. -/
def matchSelector (l : List Char) : Option (List Char) :=
  let marker := ['s', 'e', 'l', 'e', 'c', 't', 'o', 'r', '(', '\"']
  if l.take 10 = marker ∧ 12 ≤ l.length ∧
      l.drop (l.length - 2) = ['\"', ')'] then
    let sig := (l.drop 10).take (l.length - 12)
    if sig.all sigChar then some sig else none
  else none

/-- Modelled from the spec: classify the operand of a push instruction by
its lexical form: binary, octal or hex literal (radix marker plus
digits), a bare decimal literal, a selector expression, or a bare
identifier used as a label reference. -/
def classifyOperand (l : List Char) : Option Operand :=
  match l with
  | '0' :: 'b' :: ds =>
    if !ds.isEmpty && ds.all (fun c => c = '0' || c = '1') then
      some (.binary l)
    else none
  | '0' :: 'o' :: ds =>
    if !ds.isEmpty && ds.all (fun c => '0' ≤ c && c ≤ '7') then
      some (.octal l)
    else none
  | '0' :: 'x' :: ds =>
    if !ds.isEmpty && ds.all (fun c => (hexDigitVal c).isSome) then
      some (.hex l)
    else none
  | _ =>
    if !l.isEmpty && l.all Char.isDigit then some (.decimal l)
    else
      match matchSelector l with
      | some sig => some (.selector sig)
      | none => if isIdent l then some (.labelRef l) else none

/-- Argument token of a macro directive, by lexical kind: a quoted
string, a bare identifier, or another literal such as a number. -/
inductive ArgToken where
  | str (s : List Char)
  | ident (s : List Char)
  | num (s : List Char)
  deriving DecidableEq, Repr

/-- Whether an argument token is a quoted string. -/
def ArgToken.isStr : ArgToken → Bool
  | .str _ => true
  | _ => false

/-- Modelled from the spec: classify one trimmed directive argument by
lexical kind. -/
def classifyArg (t : List Char) : Option ArgToken :=
  match t with
  | '\"' :: rest =>
    if rest.getLast? = some '\"' ∧ rest.dropLast.all (fun c => c ≠ '\"') then
      some (.str rest.dropLast)
    else none
  | _ =>
    if isIdent t then some (.ident t)
    else if !t.isEmpty && t.all Char.isAlphanum then some (.num t)
    else none

/-- Modelled from the spec: split the text inside the directive's
parentheses into comma-separated argument tokens; whitespace around each
argument is insignificant; an unclassifiable argument is a grammar
failure. -/
def tokenizeArgs (inside : List Char) : Option (List ArgToken) :=
  if (trimC inside).isEmpty then some []
  else ((splitOnC ',' inside).map trimC).mapM classifyArg

/-- Modelled from the spec: the argument-typing mechanism of
crate::parse::args (not in src/) instantiated at the signature of one
quoted path string: fewer tokens than the arity fail with
missing-argument carrying got and expected, more fail with
extra-argument carrying expected, and a token of the wrong lexical kind
fails with argument-type; otherwise the path is returned. -/
def parse_arguments_path1 (toks : List ArgToken) : Except ParseError (List Char) :=
  if toks.length < 1 then .error (.missingArgument toks.length 1)
  else if 1 < toks.length then .error (.extraArgument 1)
  else
    match toks with
    | [.str s] => .ok s
    | _ => .error .argumentType

/-- Modelled from the spec: the argument-typing mechanism instantiated at
the signature of one bare label identifier. -/
def parse_arguments_label1 (toks : List ArgToken) : Except ParseError (List Char) :=
  if toks.length < 1 then .error (.missingArgument toks.length 1)
  else if 1 < toks.length then .error (.extraArgument 1)
  else
    match toks with
    | [.ident s] => .ok s
    | _ => .error .argumentType

/-- Embedding of parse_inst_macro over the directive's text after the
percent sign: dispatch on the directive name, type-check the argument
list against the directive's signature, and build the matching node.
The grammar part (name and parenthesized argument list) is modelled from
the spec; the dispatch mirrors the source's match on the rule. -/
def parse_inst_macro (l : List Char) : RResult Node :=
  let name := l.takeWhile isIdentChar
  let rest := l.dropWhile isIdentChar
  match rest with
  | '(' :: more =>
    if more.getLast? = some ')' then
      match tokenizeArgs more.dropLast with
      | none => .err .lexer
      | some toks =>
        if name = ['i', 'm', 'p', 'o', 'r', 't'] then
          match parse_arguments_path1 toks with
          | .ok p => .ok (.impFile p)
          | .error e => .err e
        else if name = ['i', 'n', 'c', 'l', 'u', 'd', 'e'] then
          match parse_arguments_path1 toks with
          | .ok p => .ok (.inclFile p)
          | .error e => .err e
        else if name = ['i', 'n', 'c', 'l', 'u', 'd', 'e', '_', 'h', 'e', 'x'] then
          match parse_arguments_path1 toks with
          | .ok p => .ok (.inclHexFile p)
          | .error e => .err e
        else if name = ['p', 'u', 's', 'h'] then
          match parse_arguments_label1 toks with
          | .ok lbl => .ok (.op (.pushDeferred (.labelRef lbl)))
          | .error e => .err e
        else .err .lexer
    else .err .lexer
  | _ => .err .lexer

/-- Modelled from the spec: the fixed opcode table for immediate-less
mnemonics mentioned by the specification, each with its opcode value and
total encoded size 1. -/
def opcodeTable : List (List Char × Nat) :=
  [(['s', 't', 'o', 'p'], 0x00),
   (['a', 'd', 'd'], 0x01),
   (['m', 'u', 'l'], 0x02),
   (['s', 'u', 'b'], 0x03),
   (['d', 'i', 'v'], 0x04),
   (['x', 'o', 'r'], 0x18),
   (['j', 'u', 'm', 'p'], 0x56),
   (['j', 'u', 'm', 'p', 'i'], 0x57),
   (['p', 'c'], 0x58),
   (['g', 'a', 's'], 0x5a),
   (['j', 'u', 'm', 'p', 'd', 'e', 's', 't'], 0x5b)]

/-- Decimal value of a digit list (for mnemonic suffixes). -/
def digitsVal (ds : List Char) : Nat :=
  radixVal 10 ds

/-- Modelled from the spec: mnemonics with a numeric suffix encoded in
the name itself: swap1..swap16 from 0x90, dup1..dup16 from 0x80,
log0..log4 from 0xa0; all carry no immediate. -/
def varMnemonic (mn : List Char) : Option Specifier :=
  match mn with
  | 's' :: 'w' :: 'a' :: 'p' :: ds =>
    if !ds.isEmpty && ds.all Char.isDigit && 1 ≤ digitsVal ds && digitsVal ds ≤ 16 then
      some ⟨0x8f + digitsVal ds, 1⟩
    else none
  | 'd' :: 'u' :: 'p' :: ds =>
    if !ds.isEmpty && ds.all Char.isDigit && 1 ≤ digitsVal ds && digitsVal ds ≤ 16 then
      some ⟨0x7f + digitsVal ds, 1⟩
    else none
  | 'l' :: 'o' :: 'g' :: ds =>
    if !ds.isEmpty && ds.all Char.isDigit && digitsVal ds ≤ 4 then
      some ⟨0xa0 + digitsVal ds, 1⟩
    else none
  | _ => none

/-- Modelled from the spec: look one immediate-less mnemonic up in the
fixed opcode table. -/
def lookupMnemonic (mn : List Char) : Option Specifier :=
  match (opcodeTable.find? (fun p => p.1 = mn)).map (fun p => Specifier.mk p.2 1) with
  | some s => some s
  | none => varMnemonic mn

/-- Modelled from the spec: recognize a push mnemonic pushN with N in
1..=32 encoded in the mnemonic itself, returning N. -/
def pushSize (mn : List Char) : Option Nat :=
  match mn with
  | 'p' :: 'u' :: 's' :: 'h' :: ds =>
    if !ds.isEmpty && ds.all Char.isDigit && 1 ≤ digitsVal ds && digitsVal ds ≤ 32 then
      some (digitsVal ds)
    else none
  | _ => none

/-- Parse one trimmed, nonempty statement into a node.  The statement
layer of the grammar is modelled from the spec; the per-construct
dispatch (label definition, macro directive, push instruction, bare
instruction) mirrors the match of parse_asm in the source. -/
def parseStmt (stmt : List Char) : RResult Node :=
  if stmt.getLast? = some ':' then
    if isIdent stmt.dropLast then .ok (.op (.label stmt.dropLast))
    else .err .lexer
  else if stmt.head? = some '%' then
    parse_inst_macro (stmt.drop 1)
  else
    let mn := stmt.takeWhile (fun c => !isWS c)
    let rest := trimC (stmt.dropWhile (fun c => !isWS c))
    match pushSize mn with
    | some n =>
      if rest.isEmpty then .err .lexer
      else
        match classifyOperand rest with
        | some operand =>
          match parse_push n operand with
          | .ok a => .ok (.op a)
          | .err e => .err e
          | .crash => .crash
        | none => .err .lexer
    | none =>
      if rest.isEmpty then
        match lookupMnemonic mn with
        | some spec => .ok (.op (.opcode spec none))
        | none => .err .lexer
      else .err .lexer

/-- Fold the statement list into the ordered node sequence, aborting at
the first error, as parse_asm's single pass does. -/
def parseNodes : List (List Char) → RResult (List Node)
  | [] => .ok []
  | s :: rest =>
    match parseStmt s with
    | .ok n =>
      match parseNodes rest with
      | .ok ns => .ok (n :: ns)
      | .err e => .err e
      | .crash => .crash
    | .err e => .err e
    | .crash => .crash

/-- Embedding of parse_asm: the whole front end, from source text to the
ordered AST or the first error. -/
def parse_asm (asm : String) : RResult (List Node) :=
  parseNodes (statements asm.data)

/-! ## Lemmas: bit lengths and big-endian bytes -/

theorem bitlenFuel_le_iff (fuel : Nat) :
    ∀ n m : Nat, n ≤ fuel → (bitlenFuel fuel n ≤ m ↔ n < 2 ^ m) := by
  induction fuel with
  | zero =>
    intro n m hn
    interval_cases n
    simp [bitlenFuel, Nat.pos_pow_of_pos, Nat.two_pow_pos]
  | succ fuel ih =>
    intro n m hn
    by_cases h0 : n = 0
    · subst h0
      simp [bitlenFuel, Nat.two_pow_pos]
    · rw [bitlenFuel]
      simp only [h0, if_false]
      cases m with
      | zero =>
        simp only [Nat.pow_zero]
        omega
      | succ m =>
        have hdiv : n / 2 ≤ fuel := by omega
        rw [Nat.add_le_add_iff_right, ih (n / 2) m hdiv, Nat.pow_succ]
        constructor
        · intro h
          have := Nat.lt_of_div_lt_div (c := 2) (by omega : n / 2 < 2 ^ m * 2 / 2)
          omega
        · intro h
          omega

theorem bitlen_le_iff (n m : Nat) : bitlen n ≤ m ↔ n < 2 ^ m :=
  bitlenFuel_le_iff n n m (Nat.le_refl n)

theorem radixPrePadLen_le_iff (v k : Nat) (hv : v < 2 ^ 128) :
    radixPrePadLen v ≤ k ↔ v < 2 ^ (8 * k) := by
  have hb : bitlen v ≤ 128 := (bitlen_le_iff v 128).mpr hv
  have hmsb : 128 - leadingZeros128 v = bitlen v := by
    unfold leadingZeros128; omega
  have key : radixPrePadLen v ≤ k ↔ bitlen v ≤ 8 * k := by
    unfold radixPrePadLen
    dsimp only
    rw [hmsb]
    have := Nat.div_add_mod (bitlen v) 8
    split <;> omega
  rw [key, ← bitlen_le_iff]

@[simp]
theorem beBytesPad_length (k n : Nat) : (beBytesPad k n).length = k := by
  induction k with
  | zero => rfl
  | succ k ih => simp [beBytesPad, ih]

theorem beBytesPad_drop (k : Nat) :
    ∀ j n : Nat, j ≤ k → (beBytesPad k n).drop (k - j) = beBytesPad j n := by
  induction k with
  | zero =>
    intro j n hj
    interval_cases j
    rfl
  | succ k ih =>
    intro j n hj
    rcases Nat.lt_or_ge j (k + 1) with h | h
    · have hj' : j ≤ k := by omega
      have : k + 1 - j = (k - j) + 1 := by omega
      rw [this, beBytesPad, List.drop_succ_cons, ih j n hj']
    · have : j = k + 1 := by omega
      subst this
      simp

theorem beBytesPad_pad (k : Nat) :
    ∀ j v : Nat, v < 2 ^ (8 * j) → j ≤ k →
      List.replicate (k - j) 0 ++ beBytesPad j v = beBytesPad k v := by
  induction k with
  | zero =>
    intro j v _ hj
    interval_cases j
    rfl
  | succ k ih =>
    intro j v hv hj
    rcases Nat.lt_or_ge j (k + 1) with h | h
    · have hj' : j ≤ k := by omega
      have hrep : k + 1 - j = (k - j) + 1 := by omega
      have hhi : (v >>> (8 * k)) % 256 = 0 := by
        have hle : 2 ^ (8 * j) ≤ 2 ^ (8 * k) :=
          Nat.pow_le_pow_right (by omega) (by omega)
        have : v >>> (8 * k) = 0 := by
          rw [Nat.shiftRight_eq_div_pow]
          exact Nat.div_eq_of_lt (by omega)
        simp [this]
      rw [hrep, List.replicate_succ, beBytesPad, hhi, List.cons_append,
        ih j v hv hj']
    · have : j = k + 1 := by omega
      subst this
      simp

/-! ## Lemmas: from_str_radix and radix_str_to_vec -/

@[simp]
theorem radixStep_none (radix : Nat) (c : Char) :
    radixStep radix none c = none := rfl

theorem foldl_radixStep_none (radix : Nat) (s : List Char) :
    s.foldl (radixStep radix) none = none := by
  induction s with
  | nil => rfl
  | cons c s ih => simpa using ih

theorem radixVal_from_le (radix : Nat) (h1 : 1 ≤ radix) (s : List Char) :
    ∀ a : Nat, a ≤ s.foldl (radixValStep radix) a := by
  induction s with
  | nil => intro a; exact Nat.le_refl a
  | cons c s ih =>
    intro a
    have hstep : a ≤ radixValStep radix a c := by
      unfold radixValStep
      calc a = a * 1 := (Nat.mul_one a).symm
        _ ≤ a * radix := Nat.mul_le_mul_left a h1
        _ ≤ a * radix + (toDigit c radix).getD 0 := Nat.le_add_right _ _
    exact Nat.le_trans hstep (ih (radixValStep radix a c))

theorem foldl_radixStep_eq (radix : Nat) (h2 : 2 ≤ radix) :
    ∀ (s : List Char) (a : Nat), (∀ c ∈ s, (toDigit c radix).isSome) →
      a < 2 ^ 128 →
      s.foldl (radixStep radix) (some a) =
        if s.foldl (radixValStep radix) a < 2 ^ 128 then
          some (s.foldl (radixValStep radix) a)
        else none := by
  intro s
  induction s with
  | nil =>
    intro a _ ha
    simp only [List.foldl]
    rw [if_pos ha]
  | cons c s ih =>
    intro a hall ha
    obtain ⟨d, hd⟩ := Option.isSome_iff_exists.mp (hall c (by simp))
    have hstep : radixStep radix (some a) c =
        if a * radix + d < 2 ^ 128 then some (a * radix + d) else none := by
      unfold radixStep
      rw [hd]
    have hval : radixValStep radix a c = a * radix + d := by
      unfold radixValStep
      rw [hd]
      rfl
    simp only [List.foldl, hstep, hval]
    by_cases hlt : a * radix + d < 2 ^ 128
    · rw [if_pos hlt]
      exact ih (a * radix + d) (fun x hx => hall x (by simp [hx])) hlt
    · rw [if_neg hlt, foldl_radixStep_none]
      have hmono := radixVal_from_le radix (by omega) s (a * radix + d)
      rw [if_neg (by omega)]

theorem dropPlus_eq_self (s : List Char) (h : ∀ c ∈ s, c ≠ '+') :
    dropPlus s = s := by
  cases s with
  | nil => rfl
  | cons c rest =>
    have hc : c ≠ '+' := h c (List.mem_cons_self c rest)
    unfold dropPlus
    split <;> simp_all

theorem from_str_radix_eq (s : List Char) (radix : Nat) (h2 : 2 ≤ radix)
    (hne : s ≠ []) (hall : ∀ c ∈ s, (toDigit c radix).isSome) :
    from_str_radix s radix =
      if radixVal radix s < 2 ^ 128 then some (radixVal radix s) else none := by
  have hnoplus : ∀ c ∈ s, c ≠ '+' := by
    intro c hc hcp
    have := hall c hc
    subst hcp
    simp [toDigit, digitVal] at this
  unfold from_str_radix
  dsimp only
  rw [dropPlus_eq_self s hnoplus, if_neg (by simpa using hne)]
  exact foldl_radixStep_eq radix h2 s 0 hall (by norm_num)

theorem radix_str_to_vec_eq (s : List Char) (radix minLen : Nat)
    (h2 : 2 ≤ radix) (hne : s ≠ [])
    (hall : ∀ c ∈ s, (toDigit c radix).isSome) :
    radix_str_to_vec s radix minLen =
      if 2 ^ 128 ≤ radixVal radix s then .err .immediateTooLarge
      else if 16 < max (radixPrePadLen (radixVal radix s)) minLen then .crash
      else .ok (beBytesPad (max (radixPrePadLen (radixVal radix s)) minLen)
        (radixVal radix s)) := by
  unfold radix_str_to_vec
  rw [from_str_radix_eq s radix h2 hne hall]
  by_cases hv : radixVal radix s < 2 ^ 128
  · rw [if_pos hv, if_neg (by omega)]
    dsimp only
    by_cases h16 : 16 < max (radixPrePadLen (radixVal radix s)) minLen
    · rw [if_pos h16, if_pos h16]
    · rw [if_neg h16, if_neg h16,
        beBytesPad_drop 16 (max (radixPrePadLen (radixVal radix s)) minLen)
          (radixVal radix s) (by omega)]
  · rw [if_neg hv, if_pos (by omega)]

/-! ## Lemmas: with_immediate and hexDecode -/

theorem with_immediate_none_iff (spec : Specifier) (imm : List Nat) :
    with_immediate spec imm = none ↔ spec.size - 1 < imm.length := by
  unfold with_immediate
  dsimp only
  split <;> simp_all

theorem with_immediate_some (spec : Specifier) (imm : List Nat)
    (h : imm.length ≤ spec.size - 1) :
    with_immediate spec imm =
      some (.opcode spec (some (.bytes
        (List.replicate (spec.size - 1 - imm.length) 0 ++ imm)))) := by
  unfold with_immediate
  dsimp only
  split
  · omega
  · rfl

theorem with_immediate_exact (spec : Specifier) (imm : List Nat)
    (h : imm.length = spec.size - 1) :
    with_immediate spec imm = some (.opcode spec (some (.bytes imm))) := by
  rw [with_immediate_some spec imm (by omega)]
  simp [h]

theorem hexDecode_valid :
    ∀ hs : List Char, (∀ c ∈ hs, (hexDigitVal c).isSome) → hs.length % 2 = 0 →
      ∃ bs, hexDecode hs = some bs ∧ bs.length = hs.length / 2
  | [] => fun _ _ => ⟨[], rfl, rfl⟩
  | [_] => fun _ h => by simp at h
  | c1 :: c2 :: rest => fun hall hlen => by
    have h1 : (hexDigitVal c1).isSome := hall c1 (by simp)
    have h2 : (hexDigitVal c2).isSome := hall c2 (by simp)
    have hrest : ∀ c ∈ rest, (hexDigitVal c).isSome := by
      intro c hc
      exact hall c (by simp [hc])
    have hlen' : rest.length % 2 = 0 := by
      simp only [List.length_cons] at hlen
      omega
    obtain ⟨bs, hbs, hbl⟩ := hexDecode_valid rest hrest hlen'
    obtain ⟨d1, hd1⟩ := Option.isSome_iff_exists.mp h1
    obtain ⟨d2, hd2⟩ := Option.isSome_iff_exists.mp h2
    refine ⟨(16 * d1 + d2) :: bs, ?_, ?_⟩
    · rw [hexDecode, hd1, hd2, hbs]
    · simp only [List.length_cons, hbl]
      omega

/-! ## Lemmas: keccak output length -/

@[simp]
theorem keccak256_length (msg : List Nat) : (keccak256 msg).length = 32 := by
  simp [keccak256]

/-! ## Lemmas: parse_push characterizations -/

theorem Specifier.push_eq (N : Nat) (hN1 : 1 ≤ N) (hN2 : N ≤ 32) :
    Specifier.push N = some ⟨0x5f + N, N + 1⟩ := by
  unfold Specifier.push
  rw [if_pos ⟨hN1, hN2⟩]

theorem pow_8_16_eq : (2 : Nat) ^ (8 * 16) = 2 ^ 128 := by norm_num

theorem pushRadix_eq (radix N : Nat) (s : List Char) (h2 : 2 ≤ radix)
    (hne : s ≠ []) (hall : ∀ c ∈ s, (toDigit c radix).isSome)
    (hN1 : 1 ≤ N) (hN2 : N ≤ 32) :
    pushRadix ⟨0x5f + N, N + 1⟩ s radix N =
      if 2 ^ (8 * min 16 N) ≤ radixVal radix s then .err .immediateTooLarge
      else if N ≤ 16 then
        .ok (.opcode ⟨0x5f + N, N + 1⟩
          (some (.bytes (beBytesPad N (radixVal radix s)))))
      else .crash := by
  unfold pushRadix
  rw [radix_str_to_vec_eq s radix N h2 hne hall]
  set v := radixVal radix s with hv
  by_cases hov : 2 ^ 128 ≤ v
  · have hcond : 2 ^ (8 * min 16 N) ≤ v :=
      le_trans (Nat.pow_le_pow_right (by omega) (by omega : 8 * min 16 N ≤ 128)) hov
    rw [if_pos hov, if_pos hcond]
  · have hv128 : v < 2 ^ 128 := by omega
    rw [if_neg hov]
    by_cases hN16 : N ≤ 16
    · have hmin : min 16 N = N := by omega
      rw [hmin]
      by_cases hbig : 2 ^ (8 * N) ≤ v
      · have hpN : N < radixPrePadLen v := by
          by_contra hcon
          push_neg at hcon
          have := (radixPrePadLen_le_iff v N hv128).mp hcon
          omega
        have hp16 : radixPrePadLen v ≤ 16 := by
          have := (radixPrePadLen_le_iff v 16 hv128).mpr (pow_8_16_eq ▸ hv128)
          omega
        have hmax : max (radixPrePadLen v) N = radixPrePadLen v := by omega
        rw [hmax, if_neg (by omega : ¬ 16 < radixPrePadLen v), if_pos hbig]
        have hwi : with_immediate ⟨0x5f + N, N + 1⟩ (beBytesPad (radixPrePadLen v) v) = none :=
          (with_immediate_none_iff _ _).mpr (by simp; omega)
        show ctxITL (with_immediate ⟨0x5f + N, N + 1⟩ (beBytesPad (radixPrePadLen v) v)) =
          .err .immediateTooLarge
        rw [hwi]
        rfl
      · have hpN : radixPrePadLen v ≤ N :=
          (radixPrePadLen_le_iff v N hv128).mpr (by omega)
        have hmax : max (radixPrePadLen v) N = N := by omega
        rw [hmax, if_neg (by omega : ¬ 16 < N), if_neg hbig, if_pos hN16]
        show ctxITL (with_immediate ⟨0x5f + N, N + 1⟩ (beBytesPad N v)) = _
        rw [with_immediate_exact _ _ (by simp)]
        rfl
    · have hmin : min 16 N = 16 := by omega
      rw [hmin]
      have hmax : 16 < max (radixPrePadLen v) N := by omega
      rw [if_pos hmax, if_neg (by rw [pow_8_16_eq]; omega), if_neg hN16]

theorem parse_push_decimal_eq (N : Nat) (ds : List Char)
    (hN1 : 1 ≤ N) (hN2 : N ≤ 32) (hne : ds ≠ [])
    (hall : ∀ c ∈ ds, (toDigit c 10).isSome) :
    parse_push N (.decimal ds) =
      if 2 ^ (8 * min 16 N) ≤ radixVal 10 ds then .err .immediateTooLarge
      else if N ≤ 16 then
        .ok (.opcode ⟨0x5f + N, N + 1⟩ (some (.bytes (beBytesPad N (radixVal 10 ds)))))
      else .crash := by
  unfold parse_push
  rw [Specifier.push_eq N hN1 hN2]
  show pushRadix ⟨0x5f + N, N + 1⟩ ds 10 N = _
  exact pushRadix_eq 10 N ds (by omega) hne hall hN1 hN2

theorem parse_push_binary_eq (N : Nat) (ds : List Char)
    (hN1 : 1 ≤ N) (hN2 : N ≤ 32) (hne : ds ≠ [])
    (hall : ∀ c ∈ ds, (toDigit c 2).isSome) :
    parse_push N (.binary ('0' :: 'b' :: ds)) =
      if 2 ^ (8 * min 16 N) ≤ radixVal 2 ds then .err .immediateTooLarge
      else if N ≤ 16 then
        .ok (.opcode ⟨0x5f + N, N + 1⟩ (some (.bytes (beBytesPad N (radixVal 2 ds)))))
      else .crash := by
  unfold parse_push
  rw [Specifier.push_eq N hN1 hN2]
  show pushRadix ⟨0x5f + N, N + 1⟩ (('0' :: 'b' :: ds).drop 2) 2 N = _
  show pushRadix ⟨0x5f + N, N + 1⟩ ds 2 N = _
  exact pushRadix_eq 2 N ds (by omega) hne hall hN1 hN2

theorem parse_push_octal_eq (N : Nat) (ds : List Char)
    (hN1 : 1 ≤ N) (hN2 : N ≤ 32) (hne : ds ≠ [])
    (hall : ∀ c ∈ ds, (toDigit c 8).isSome) :
    parse_push N (.octal ('0' :: 'o' :: ds)) =
      if 2 ^ (8 * min 16 N) ≤ radixVal 8 ds then .err .immediateTooLarge
      else if N ≤ 16 then
        .ok (.opcode ⟨0x5f + N, N + 1⟩ (some (.bytes (beBytesPad N (radixVal 8 ds)))))
      else .crash := by
  unfold parse_push
  rw [Specifier.push_eq N hN1 hN2]
  show pushRadix ⟨0x5f + N, N + 1⟩ (('0' :: 'o' :: ds).drop 2) 8 N = _
  show pushRadix ⟨0x5f + N, N + 1⟩ ds 8 N = _
  exact pushRadix_eq 8 N ds (by omega) hne hall hN1 hN2

theorem parse_push_hex_eq (N : Nat) (hs : List Char) (bs : List Nat)
    (hN1 : 1 ≤ N) (hN2 : N ≤ 32) (hdec : hexDecode hs = some bs) :
    parse_push N (.hex ('0' :: 'x' :: hs)) =
      if N < bs.length then .err .immediateTooLarge
      else .ok (.opcode ⟨0x5f + N, N + 1⟩
        (some (.bytes (List.replicate (N - bs.length) 0 ++ bs)))) := by
  unfold parse_push
  rw [Specifier.push_eq N hN1 hN2]
  show (match hexDecode (('0' :: 'x' :: hs).drop 2) with
    | none => RResult.crash
    | some imm => ctxITL (with_immediate ⟨0x5f + N, N + 1⟩ imm)) = _
  rw [show ('0' :: 'x' :: hs).drop 2 = hs from rfl, hdec]
  by_cases hlen : N < bs.length
  · rw [if_pos hlen]
    have hwi : with_immediate ⟨0x5f + N, N + 1⟩ bs = none :=
      (with_immediate_none_iff _ _).mpr (by simp; omega)
    show ctxITL (with_immediate ⟨0x5f + N, N + 1⟩ bs) = _
    rw [hwi]
    rfl
  · rw [if_neg hlen]
    show ctxITL (with_immediate ⟨0x5f + N, N + 1⟩ bs) = _
    rw [with_immediate_some _ _ (by simp; omega)]
    simp [ctxITL]

theorem parse_push_selector_eq (N : Nat) (sig : List Char)
    (hN1 : 1 ≤ N) (hN2 : N ≤ 32) :
    parse_push N (.selector sig) =
      .ok (.opcode ⟨0x5f + N, N + 1⟩
        (some (.bytes ((keccak256 (utf8Bytes sig)).take N)))) := by
  unfold parse_push
  rw [Specifier.push_eq N hN1 hN2]
  show ctxITL (with_immediate ⟨0x5f + N, N + 1⟩
    ((keccak256 (utf8Bytes sig)).take ((⟨0x5f + N, N + 1⟩ : Specifier).size - 1))) = _
  have hsz : (⟨0x5f + N, N + 1⟩ : Specifier).size - 1 = N := by simp
  rw [hsz]
  have hlen : ((keccak256 (utf8Bytes sig)).take N).length = N := by
    rw [List.length_take, keccak256_length]
    omega
  rw [with_immediate_exact _ _ (by simp [hlen])]
  rfl

/-! ## Lemmas: the concrete-immediate width invariant -/

/-- The width invariant for one AST node: a concrete immediate's byte
count equals the width declared by the instruction's specifier (total
size minus one); nodes without a concrete immediate carry no
obligation. -/
def nodeImmOk : Node → Prop
  | .op (.opcode spec (some (.bytes bs))) => bs.length = spec.size - 1
  | _ => True

theorem ctxITL_ok (o : Option AbstractOp) (a : AbstractOp)
    (h : ctxITL o = .ok a) : o = some a := by
  cases o with
  | none => exact absurd h (by simp [ctxITL])
  | some b => simpa [ctxITL] using h

theorem with_immediate_ok (spec : Specifier) (imm : List Nat) (a : AbstractOp)
    (h : with_immediate spec imm = some a) :
    a = .opcode spec (some (.bytes
      (List.replicate (spec.size - 1 - imm.length) 0 ++ imm)))
      ∧ imm.length ≤ spec.size - 1 := by
  unfold with_immediate at h
  dsimp only at h
  split at h
  · exact absurd h (by simp)
  · rename_i hlt
    refine ⟨by simpa using h.symm, by omega⟩

theorem pushRadix_ok (spec : Specifier) (s : List Char) (radix size : Nat)
    (a : AbstractOp) (h : pushRadix spec s radix size = .ok a) :
    nodeImmOk (.op a) := by
  unfold pushRadix at h
  split at h
  · obtain ⟨heq, hle⟩ := with_immediate_ok _ _ _ (ctxITL_ok _ _ h)
    subst heq
    simp [nodeImmOk]
    omega
  · exact absurd h (by simp)
  · exact absurd h (by simp)

theorem parse_push_ok (size : Nat) (operand : Operand) (a : AbstractOp)
    (h : parse_push size operand = .ok a) : nodeImmOk (.op a) := by
  unfold parse_push at h
  split at h
  · exact absurd h (by simp)
  · cases operand with
    | binary raw => exact pushRadix_ok _ _ _ _ _ h
    | octal raw => exact pushRadix_ok _ _ _ _ _ h
    | decimal raw => exact pushRadix_ok _ _ _ _ _ h
    | hex raw =>
      dsimp only at h
      split at h
      · exact absurd h (by simp)
      · obtain ⟨heq, hle⟩ := with_immediate_ok _ _ _ (ctxITL_ok _ _ h)
        subst heq
        simp [nodeImmOk]
        omega
    | selector sig =>
      dsimp only at h
      obtain ⟨heq, hle⟩ := with_immediate_ok _ _ _ (ctxITL_ok _ _ h)
      subst heq
      simp only [nodeImmOk, List.length_append, List.length_replicate]
      omega
    | labelRef name =>
      rename_i spec hspec
      dsimp only at h
      obtain rfl : with_label spec name = a := by simpa using h
      simp [nodeImmOk, with_label]

theorem parse_inst_macro_ok (l : List Char) (n : Node)
    (h : parse_inst_macro l = .ok n) : nodeImmOk n := by
  unfold parse_inst_macro at h
  dsimp only at h
  repeat' split at h
  all_goals first
    | (simp_all [nodeImmOk]; done)
    | (obtain rfl : _ = n := by simpa using h
       simp [nodeImmOk])

theorem parseStmt_ok (s : List Char) (n : Node) (h : parseStmt s = .ok n) :
    nodeImmOk n := by
  unfold parseStmt at h
  split at h
  · split at h
    · obtain rfl : Node.op (.label s.dropLast) = n := by simpa using h
      simp [nodeImmOk]
    · simp_all
  · split at h
    · exact parse_inst_macro_ok _ _ h
    · dsimp only at h
      split at h
      · split at h
        · simp_all
        · split at h
          · split at h
            · rename_i b hpush
              obtain rfl : Node.op b = n := by simpa using h
              exact parse_push_ok _ _ _ hpush
            · simp_all
            · simp_all
          · simp_all
      · split at h
        · split at h
          · rename_i spec hspec
            obtain rfl : Node.op (.opcode spec none) = n := by simpa using h
            simp [nodeImmOk]
          · simp_all
        · simp_all

theorem parseNodes_ok :
    ∀ (ss : List (List Char)) (nodes : List Node),
      parseNodes ss = .ok nodes → ∀ n ∈ nodes, nodeImmOk n := by
  intro ss
  induction ss with
  | nil =>
    intro nodes h n hn
    simp only [parseNodes] at h
    obtain rfl : ([] : List Node) = nodes := by simpa using h
    simp at hn
  | cons s rest ih =>
    intro nodes h n hn
    simp only [parseNodes] at h
    split at h
    · rename_i a hstmt
      split at h
      · rename_i ns hrest
        obtain rfl : a :: ns = nodes := by simpa using h
        rcases List.mem_cons.mp hn with rfl | hmem
        · exact parseStmt_ok _ _ hstmt
        · exact ih ns hrest n hmem
      · simp_all
      · simp_all
    · simp_all
    · simp_all

/-! ## Helper iff lemmas for the error-condition claims -/

theorem itl_ite_iff_radix (cond : Prop) [Decidable cond] (N : Nat)
    (a : AbstractOp) :
    ((if cond then RResult.err .immediateTooLarge
      else if N ≤ 16 then RResult.ok a else RResult.crash) =
        RResult.err .immediateTooLarge) ↔ cond := by
  split
  · simp [*]
  · rename_i h
    split <;> simp [h]

theorem itl_ite_iff_hex (cond : Prop) [Decidable cond] (a : AbstractOp) :
    ((if cond then RResult.err .immediateTooLarge else RResult.ok a) =
        RResult.err .immediateTooLarge) ↔ cond := by
  split <;> simp [*]

end Etk

section Sanity

open Etk

example : from_str_radix ['2', '5', '6'] 10 = some 256 := by decide

example : radix_str_to_vec ['2', '5', '6'] 10 1 = .ok [1, 0] := by decide

example : radix_str_to_vec ['0'] 10 1 = .ok [0] := by decide

example : radix_str_to_vec ['0'] 10 17 = .crash := by decide

example : hexDecode "010203".data = some [1, 2, 3] := by decide

example : "ab".data = ['a', 'b'] := by decide

end Sanity

section Claims

open Etk

set_option maxRecDepth 10000

/-- C1: the claim states that for every N in 1..=32 and every v whose
minimal big-endian encoding fits in min(16, N) bytes, pushN with a
decimal literal parses to a concrete push whose immediate is v
left-padded to exactly N bytes.  The code satisfies this for N up to 16
(second conjunct shows the boundary case push16 0), but for N in 17..=32
radix_str_to_vec raises the length to N and then computes the slice
start 16 - N in usize, which panics, so even push17 0 crashes instead of
parsing; the first conjunct evaluates the embedded code at that failing
input. -/
theorem C1_push17_decimal_crashes :
    parse_asm "push17 0" = .crash ∧
    parse_asm "push16 0" =
      .ok [.op (.opcode ⟨0x6f, 17⟩ (some (.bytes (List.replicate 16 0))))] := by
  constructor
  · decide
  · decide

/-- C2: parsing a pushN instruction fails with ImmediateTooLarge exactly
when the operand's raw encoding exceeds the allowed size.  For a binary,
octal or decimal digit string the condition is that the value needs more
than min(16, N) bytes, stated here as 2 to the 8 * min 16 N being at most
the value (a value needs more than k bytes exactly when it is at least
2 to the 8 * k); for a hex literal the condition is that the decoded byte
count exceeds N.  The last two conjuncts check the spec's concrete
examples push1 256 and push2 0x010203. -/
theorem C2_immediate_too_large_iff :
    (∀ N : Nat, 1 ≤ N → N ≤ 32 →
      (∀ ds : List Char, ds ≠ [] → (∀ c ∈ ds, (toDigit c 10).isSome) →
        (parse_push N (.decimal ds) = .err .immediateTooLarge ↔
          2 ^ (8 * min 16 N) ≤ radixVal 10 ds)) ∧
      (∀ ds : List Char, ds ≠ [] → (∀ c ∈ ds, (toDigit c 2).isSome) →
        (parse_push N (.binary ('0' :: 'b' :: ds)) = .err .immediateTooLarge ↔
          2 ^ (8 * min 16 N) ≤ radixVal 2 ds)) ∧
      (∀ ds : List Char, ds ≠ [] → (∀ c ∈ ds, (toDigit c 8).isSome) →
        (parse_push N (.octal ('0' :: 'o' :: ds)) = .err .immediateTooLarge ↔
          2 ^ (8 * min 16 N) ≤ radixVal 8 ds)) ∧
      (∀ (hs : List Char) (bs : List Nat), hexDecode hs = some bs →
        (parse_push N (.hex ('0' :: 'x' :: hs)) = .err .immediateTooLarge ↔
          N < bs.length))) ∧
    parse_asm "push1 256" = .err .immediateTooLarge ∧
    parse_asm "push2 0x010203" = .err .immediateTooLarge := by
  refine ⟨?_, by decide, by decide⟩
  intro N h1 h2
  refine ⟨?_, ?_, ?_, ?_⟩
  · intro ds hne hall
    rw [parse_push_decimal_eq N ds h1 h2 hne hall]
    exact itl_ite_iff_radix _ _ _
  · intro ds hne hall
    rw [parse_push_binary_eq N ds h1 h2 hne hall]
    exact itl_ite_iff_radix _ _ _
  · intro ds hne hall
    rw [parse_push_octal_eq N ds h1 h2 hne hall]
    exact itl_ite_iff_radix _ _ _
  · intro hs bs hdec
    rw [parse_push_hex_eq N hs bs h1 h2 hdec]
    exact itl_ite_iff_hex _ _

/-- C2 witness: push1 of the decimal string 256 is ImmediateTooLarge by
the first conjunct of the claim theorem at concrete inputs. -/
theorem C2_witness :
    parse_push 1 (.decimal ['2', '5', '6']) = .err .immediateTooLarge :=
  ((C2_immediate_too_large_iff.1 1 (by decide) (by decide)).1
    ['2', '5', '6'] (by decide) (by decide)).mpr (by decide)

/-- C3: for every N in 1..=32 and every signature text the selector
operand parses to a concrete push whose immediate is the first N bytes
of the Keccak-256 digest of the signature's UTF-8 bytes; concretely,
push4 selector of name() has immediate 06fdde03 and push32 selector of
transfer(address,uint256) carries the full 32-byte digest. -/
theorem C3_selector_push :
    (∀ N : Nat, 1 ≤ N → N ≤ 32 → ∀ sig : List Char,
      parse_push N (.selector sig) =
        .ok (.opcode ⟨0x5f + N, N + 1⟩
          (some (.bytes ((keccak256 (utf8Bytes sig)).take N))))) ∧
    parse_asm "push4 selector(\"name()\")" =
      .ok [.op (.opcode ⟨0x63, 5⟩
        (some (.bytes [0x06, 0xfd, 0xde, 0x03])))] ∧
    parse_asm "push32 selector(\"transfer(address,uint256)\")" =
      .ok [.op (.opcode ⟨0x7f, 33⟩ (some (.bytes
        [0xa9, 0x05, 0x9c, 0xbb, 0x2a, 0xb0, 0x9e, 0xb2, 0x19, 0x58, 0x3f,
         0x4a, 0x59, 0xa5, 0xd0, 0x62, 0x3a, 0xde, 0x34, 0x6d, 0x96, 0x2b,
         0xcd, 0x4e, 0x46, 0xb1, 0x1d, 0xa0, 0x47, 0xc9, 0x04, 0x9b])))] := by
  refine ⟨?_, by decide, by decide⟩
  intro N h1 h2 sig
  exact parse_push_selector_eq N sig h1 h2

/-- C3 witness: the universal conjunct applied at push4 and the signature
name(). -/
theorem C3_witness :
    parse_push 4 (.selector "name()".data) =
      .ok (.opcode ⟨0x63, 5⟩
        (some (.bytes ((keccak256 (utf8Bytes "name()".data)).take 4)))) :=
  C3_selector_push.1 4 (by decide) (by decide) "name()".data

/-- C4: hex round-trip: for every N in 1..=32 and every string of exactly
2N hex digits, pushN of the 0x literal parses and its immediate equals
the direct hex decoding, unmodified. -/
theorem C4_hex_round_trip :
    ∀ N : Nat, 1 ≤ N → N ≤ 32 → ∀ hs : List Char,
      hs.length = 2 * N → (∀ c ∈ hs, (hexDigitVal c).isSome) →
      hexDecode hs ≠ none ∧
      parse_push N (.hex ('0' :: 'x' :: hs)) =
        .ok (.opcode ⟨0x5f + N, N + 1⟩
          (some (.bytes ((hexDecode hs).getD [])))) := by
  intro N h1 h2 hs hlen hall
  obtain ⟨bs, hdec, hbl⟩ := hexDecode_valid hs hall (by omega)
  have hblN : bs.length = N := by omega
  refine ⟨by simp [hdec], ?_⟩
  rw [parse_push_hex_eq N hs bs h1 h2 hdec, if_neg (by omega), hdec]
  simp [hblN]

/-- C4 witness: the claim theorem applied at push1 0x42. -/
theorem C4_witness :
    hexDecode ['4', '2'] ≠ none ∧
    parse_push 1 (.hex ['0', 'x', '4', '2']) =
      .ok (.opcode ⟨0x60, 2⟩
        (some (.bytes ((hexDecode ['4', '2']).getD [])))) :=
  C4_hex_round_trip 1 (by decide) (by decide) ['4', '2'] (by decide) (by decide)

/-- C5: directive argument checking: an arity-1 directive invoked with
two or more arguments fails with ExtraArgument carrying expected 1, with
zero arguments fails with MissingArgument carrying got 0 and expected 1,
and with one argument of the wrong lexical kind fails with ArgumentType;
concretely the three import invocations of the spec produce exactly
those three errors. -/
theorem C5_directive_argument_errors :
    (∀ toks : List ArgToken, 2 ≤ toks.length →
      parse_arguments_path1 toks = .error (.extraArgument 1)) ∧
    parse_arguments_path1 [] = .error (.missingArgument 0 1) ∧
    (∀ t : ArgToken, t.isStr = false →
      parse_arguments_path1 [t] = .error .argumentType) ∧
    parse_asm "%import(\"foo.asm\", \"bar.asm\")" = .err (.extraArgument 1) ∧
    parse_asm "%import()" = .err (.missingArgument 0 1) ∧
    parse_asm "%import(0x44)" = .err .argumentType := by
  refine ⟨?_, by rfl, ?_, by decide, by decide, by decide⟩
  · intro toks hlen
    unfold parse_arguments_path1
    rw [if_neg (by omega), if_pos (by omega)]
  · intro t ht
    cases t with
    | str s => simp [ArgToken.isStr] at ht
    | ident s => rfl
    | num s => rfl

/-- C5 witness: the extra-argument conjunct applied to a concrete
two-token list. -/
theorem C5_witness :
    parse_arguments_path1 [.str ['a'], .str ['b']] =
      .error (.extraArgument 1) :=
  C5_directive_argument_errors.1 [.str ['a'], .str ['b']] (by decide)

/-- C6: every AST node of a successful parse whose immediate is concrete
carries exactly specifier total size minus one immediate bytes, never
more and never fewer. -/
theorem C6_concrete_imm_width (asm : String) (nodes : List Node)
    (h : parse_asm asm = .ok nodes) : ∀ n ∈ nodes, nodeImmOk n := by
  unfold parse_asm at h
  exact parseNodes_ok _ _ h

/-- C6 witness: the invariant instantiated on the parse of push2 5, whose
single node carries the two-byte immediate 00 05. -/
theorem C6_witness :
    nodeImmOk (Node.op (.opcode ⟨0x61, 3⟩ (some (.bytes [0, 5])))) :=
  C6_concrete_imm_width "push2 5"
    [.op (.opcode ⟨0x61, 3⟩ (some (.bytes [0, 5])))] (by decide)
    (Node.op (.opcode ⟨0x61, 3⟩ (some (.bytes [0, 5])))) (by simp)

/-- C7: a label that lexically coincides with a mnemonic parses without
ambiguity: push1 colon followed by push1 push1 yields exactly the label
definition push1 and then a concrete push1 instruction whose operand is
the deferred reference push1. -/
theorem C7_label_mnemonic_disambiguation :
    parse_asm "push1:\npush1 push1" =
      .ok [.op (.label "push1".data),
        .op (.opcode ⟨0x60, 2⟩ (some (.labelRef "push1".data)))] := by
  decide

/-- C8: statement-separator equivalence: the two-instruction line with a
semicolon parses to the same AST as the same instructions on separate
lines, and that AST is the two concrete push1 instructions. -/
theorem C8_separator_equivalence :
    parse_asm "push1 0b0; push1 0b1" = parse_asm "push1 0b0\npush1 0b1" ∧
    parse_asm "push1 0b0; push1 0b1" =
      .ok [.op (.opcode ⟨0x60, 2⟩ (some (.bytes [0]))),
        .op (.opcode ⟨0x60, 2⟩ (some (.bytes [1])))] := by
  constructor
  · decide
  · decide

/-- C9 counterexample: the claim states that a value of exactly zero
yields a pre-padding byte count of 1 (not 0); in the code the length
computed for zero before the max with the declared minimum is 128 minus
leading_zeros of 0, that is 0 bits, giving 0 bytes, so the claimed count
of 1 is false. -/
theorem C9_counterexample : ¬ radixPrePadLen 0 = 1 := by decide

/-- C9 amended: a value of exactly zero yields a pre-padding byte count
of 0 (not 1); since the declared width is at least 1, the max with the
declared minimum raises the final length anyway, so push1 0 still parses
to the single immediate byte 00. -/
theorem C9_zero_prepad_len :
    radixPrePadLen 0 = 0 ∧
    parse_asm "push1 0" =
      .ok [.op (.opcode ⟨0x60, 2⟩ (some (.bytes [0])))] := by
  constructor
  · decide
  · decide

/-- C10: the ImmediateTooLarge branch of the selector path is
unreachable: the digest has 32 bytes, the slice passed to the
constructor is exactly the first N of them, and the parse never fails
with ImmediateTooLarge. -/
theorem C10_selector_never_itl :
    ∀ N : Nat, 1 ≤ N → N ≤ 32 → ∀ sig : List Char,
      (keccak256 (utf8Bytes sig)).length = 32 ∧
      ((keccak256 (utf8Bytes sig)).take N).length = N ∧
      parse_push N (.selector sig) ≠ .err .immediateTooLarge := by
  intro N h1 h2 sig
  refine ⟨keccak256_length _, ?_, ?_⟩
  · rw [List.length_take, keccak256_length]
    omega
  · rw [parse_push_selector_eq N sig h1 h2]
    simp

/-- C10 witness: the claim theorem applied at push4 and the signature
name(). -/
theorem C10_witness :
    (keccak256 (utf8Bytes "name()".data)).length = 32 ∧
    ((keccak256 (utf8Bytes "name()".data)).take 4).length = 4 ∧
    parse_push 4 (.selector "name()".data) ≠ .err .immediateTooLarge :=
  C10_selector_never_itl 4 (by decide) (by decide) "name()".data

end Claims
